import Mathlib

/-!
Shallow embedding of the Monte-Carlo BER simulator in
src/digital_modulation_simulation.py (function simulate_ber).

Bits are modelled as integers (the source draws them with
np.random.randint(0, 2) and demodulation produces ints via .astype(int)),
complex baseband symbols as Mathlib complex numbers, and the
floating-point arithmetic of the source as exact real arithmetic.
Fallible steps (numpy reshape / broadcast errors, dict KeyError) are
modelled with Option: none stands for the raised exception.
-/

namespace DigModSim

noncomputable section

open Complex

/-- Complex point built from an integer coordinate pair, re + im*I.
Used for the 16-QAM constellation entries such as -3-3j in the source. -/
def toC (p : ℤ × ℤ) : ℂ := ((p.1 : ℝ) : ℂ) + ((p.2 : ℝ) : ℂ) * Complex.I

/-- BPSK modulation of one bit: the source line 32 computes
2 * transmitted_bits - 1 (so bit 0 goes to -1 and bit 1 to +1, despite the
comment on line 31 announcing 0 to +1, 1 to -1). -/
def bpskMapSym (b : ℤ) : ℂ := ((2 * b - 1 : ℤ) : ℂ)

/-- BPSK modulation of a bit sequence (elementwise, k = 1). -/
def bpskMap (bits : List ℤ) : List ℂ := bits.map bpskMapSym

/-- BPSK decision for one received symbol: bit 1 when the real part is
negative, else bit 0 (source line 67). -/
def bpskDemodSym (s : ℂ) : ℤ := if s.re < 0 then 1 else 0

/-- BPSK demodulation of a received sequence (elementwise). -/
def bpskDemod (received : List ℂ) : List ℤ := received.map bpskDemodSym

/-- QPSK modulation of one bit pair: (1 - 2*b0) + (1 - 2*b1) I, divided by
sqrt 2 (source lines 37-38; b0 is the even-index bit, b1 the odd-index bit). -/
def qpskMapSym (b0 b1 : ℤ) : ℂ :=
  (((1 - 2 * b0 : ℤ) : ℂ) + ((1 - 2 * b1 : ℤ) : ℂ) * Complex.I) / ((Real.sqrt 2 : ℝ) : ℂ)

/-- Strided slice with step 2 starting at the head, numpy's l[0::2];
l[1::2] is stride2 of the tail. -/
def stride2 {α : Type} : List α → List α
  | [] => []
  | [a] => [a]
  | a :: _ :: rest => a :: stride2 rest

/-- Repetition step of numpy broadcasting for 1-D operands of different
lengths: a length-1 operand is repeated to the other operand's length
(also against length 0, giving an empty result); any other mismatch
raises a ValueError (none). -/
def broadcastPad {α β : Type} : List α → List β → Option (List (α × β))
  | [x], ys => some (ys.map (fun y => (x, y)))
  | xs, [y] => some (xs.map (fun x => (x, y)))
  | _, _ => none

/-- Numpy broadcasting of a binary elementwise operation on two 1-D
arrays: equal lengths pair up elementwise, otherwise the length-1
repetition rule of broadcastPad applies. -/
def broadcast1D {α β : Type} (xs : List α) (ys : List β) : Option (List (α × β)) :=
  if xs.length = ys.length then some (xs.zip ys) else broadcastPad xs ys

/-- QPSK modulation (source line 37): the even-index and odd-index slices
are combined by numpy broadcasting into (1-2*b0) + (1-2*b1)j and divided
by sqrt 2.  For even length the slices are equal and pair up; for length 1
the size-1 even slice broadcasts against the empty odd slice, silently
giving an empty symbol array; for length 3 the size-1 odd slice is
silently reused for both pairs; for any other odd length line 37 raises
(none). -/
def qpskMap (bits : List ℤ) : Option (List ℂ) :=
  (broadcast1D (stride2 bits) (stride2 bits.tail)).map
    (fun ps => ps.map (fun p => qpskMapSym p.1 p.2))

/-- QPSK decision for one received symbol: real-part bit first, then
imaginary-part bit, each thresholded at 0 (source lines 70-71). -/
def qpskDemodSym (s : ℂ) : List ℤ :=
  [if s.re < 0 then 1 else 0, if s.im < 0 then 1 else 0]

/-- Broadcast step of a numpy strided assignment whose value count does
not match the slice size: a single value fills all m cells, anything else
raises a ValueError (none). -/
def assignPad : List ℤ → ℕ → Option (List ℤ)
  | [v], m => some (List.replicate m v)
  | _, _ => none

/-- Values written by one numpy strided assignment buf[start::2] = vs into
a slice of m cells: an exact length match writes vs, otherwise the
length-1 broadcast rule of assignPad applies. -/
def assignExpand (vs : List ℤ) (m : ℕ) : Option (List ℤ) :=
  if vs.length = m then some vs else assignPad vs m

/-- Interleaving of the even-slot and odd-slot cell values of the
received_bits buffer back into positional order. -/
def interleave : List ℤ → List ℤ → List ℤ
  | [], ys => ys
  | x :: xs, [] => x :: xs
  | x :: xs, y :: ys => x :: y :: interleave xs ys

/-- QPSK demodulation (source lines 70-74): threshold decisions for the
real and imaginary parts, then the two strided writes
received_bits[0::2] = bits_real and received_bits[1::2] = bits_imag into
the np.empty(numBits) buffer; a write whose value count matches neither
the slice size nor 1 raises, modelled as none.  The even slice of a
length-n buffer has (n+1)/2 cells, the odd slice n/2. -/
def qpskDemod (numBits : ℕ) (received : List ℂ) : Option (List ℤ) :=
  (assignExpand (received.map (fun s => if s.re < 0 then (1 : ℤ) else 0))
      ((numBits + 1) / 2)).bind
    (fun evens =>
      (assignExpand (received.map (fun s => if s.im < 0 then (1 : ℤ) else 0))
          (numBits / 2)).map
        (fun odds => interleave evens odds))

/-- The 16-QAM bit-group-to-point dictionary of source lines 42-47, in its
insertion order (Python dicts preserve it, and list(mapping.values()) on
line 77 relies on it).  Points are the un-normalized Gaussian integers. -/
def qam16Pairs : List ((ℤ × ℤ × ℤ × ℤ) × (ℤ × ℤ)) :=
  [ ((0,0,0,0), (-3,-3)), ((0,0,0,1), (-3,-1)), ((0,0,1,0), (-3,3)), ((0,0,1,1), (-3,1)),
    ((0,1,0,0), (-1,-3)), ((0,1,0,1), (-1,-1)), ((0,1,1,0), (-1,3)), ((0,1,1,1), (-1,1)),
    ((1,0,0,0), (3,-3)),  ((1,0,0,1), (3,-1)),  ((1,0,1,0), (3,3)),  ((1,0,1,1), (3,1)),
    ((1,1,0,0), (1,-3)),  ((1,1,0,1), (1,-1)),  ((1,1,1,0), (1,3)),  ((1,1,1,1), (1,1)) ]

/-- Forward dictionary lookup mapping[tuple(b)]: first entry whose key
equals the bit group; none models the KeyError. -/
def lookupKey (g : ℤ × ℤ × ℤ × ℤ) : List ((ℤ × ℤ × ℤ × ℤ) × (ℤ × ℤ)) → Option (ℤ × ℤ)
  | [] => none
  | kv :: rest => if kv.1 = g then some kv.2 else lookupKey g rest

/-- Integer-level reverse lookup: first entry whose point equals p. -/
def lookupVal (p : ℤ × ℤ) : List ((ℤ × ℤ × ℤ × ℤ) × (ℤ × ℤ)) → Option (ℤ × ℤ × ℤ × ℤ)
  | [] => none
  | kv :: rest => if kv.2 = p then some kv.1 else lookupVal p rest

open Classical in
/-- Reverse dictionary lookup demapping[c] of source line 78/83: the keys
are the complex dictionary values, compared for exact equality. -/
def qam16RevLookup (c : ℂ) : List ((ℤ × ℤ × ℤ × ℤ) × (ℤ × ℤ)) → Option (ℤ × ℤ × ℤ × ℤ)
  | [] => none
  | kv :: rest => if toC kv.2 = c then some kv.1 else qam16RevLookup c rest

/-- 16-QAM modulation of a bit sequence, four bits per symbol, each looked
up in the dictionary and divided by sqrt 10 (source lines 48-50).  A
leftover group of fewer than four bits models the reshape(-1, 4) failure. -/
def qam16Map : List ℤ → Option (List ℂ)
  | [] => some []
  | b0 :: b1 :: b2 :: b3 :: rest =>
      match lookupKey (b0, b1, b2, b3) qam16Pairs, qam16Map rest with
      | some p, some l => some ((toC p / ((Real.sqrt 10 : ℝ) : ℂ)) :: l)
      | _, _ => none
  | _ => none

/-- The normalized constellation array of source line 77:
np.array(list(mapping.values())) / np.sqrt(10). -/
def qam16Constellation : List ℂ :=
  qam16Pairs.map (fun kv => toC kv.2 / ((Real.sqrt 10 : ℝ) : ℂ))

/-- Tail worker for np.argmin: scans the remaining list keeping the index
of the first strictly smallest element seen so far. -/
def argminGo {α : Type} [LinearOrder α] : List α → α → ℕ → ℕ → ℕ
  | [], _, _, bi => bi
  | x :: xs, best, i, bi =>
      if x < best then argminGo xs x (i + 1) i else argminGo xs best (i + 1) bi

/-- Index of the first minimum of a list (np.argmin); 0 on the empty list. -/
def argminIdx {α : Type} [LinearOrder α] : List α → ℕ
  | [] => 0
  | x :: xs => argminGo xs x 1 0

/-- Bits of one 16-QAM hard decision, in table order. -/
def groupToList (g : ℤ × ℤ × ℤ × ℤ) : List ℤ := [g.1, g.2.1, g.2.2.1, g.2.2.2]

/-- 16-QAM decision for one received symbol (source lines 80-83): distances
to every normalized constellation point, first minimum index, then the
reverse dictionary applied to closest_point * sqrt(10); none models a
KeyError or an out-of-range index. -/
def qam16DemodSym (s : ℂ) : Option (ℤ × ℤ × ℤ × ℤ) :=
  (qam16Constellation[argminIdx (qam16Constellation.map (fun c => Complex.abs (s - c)))]?).bind
    (fun closest => qam16RevLookup (closest * ((Real.sqrt 10 : ℝ) : ℂ)) qam16Pairs)

/-- 16-QAM demodulation of a received sequence: received_bits.extend of the
per-symbol decisions, in symbol order. -/
def qam16Demod : List ℂ → Option (List ℤ)
  | [] => some []
  | s :: rest =>
      (qam16DemodSym s).bind (fun g => (qam16Demod rest).map (fun out => groupToList g ++ out))

/-- Linear Eb/N0 from its dB value (source line 22). -/
def ebN0Linear (dB : ℝ) : ℝ := (10 : ℝ) ^ (dB / 10)

/-- Symbol-energy-to-noise ratio Es/N0 = k * Eb/N0 (source line 56). -/
def esN0Linear (k : ℕ) (dB : ℝ) : ℝ := (k : ℝ) * ebN0Linear dB

/-- Per-dimension noise variance 1 / (2 * Es/N0) (source line 57). -/
def noiseVariance (k : ℕ) (dB : ℝ) : ℝ := 1 / (2 * esN0Linear k dB)

/-- Complex AWGN samples (source line 60): sqrt(noise_variance) times
(randn + 1j * randn), the two standard-normal draws given as lists. -/
def awgnNoise (k : ℕ) (dB : ℝ) (nre nim : List ℝ) : List ℂ :=
  List.zipWith
    (fun a b => ((Real.sqrt (noiseVariance k dB) : ℝ) : ℂ) * (((a : ℝ) : ℂ) + ((b : ℝ) : ℂ) * Complex.I))
    nre nim

/-- Channel output (source line 61): transmitted symbols plus noise. -/
def awgnChannel (k : ℕ) (dB : ℝ) (syms : List ℂ) (nre nim : List ℝ) : List ℂ :=
  List.zipWith (fun s n => s + n) syms (awgnNoise k dB nre nim)

/-- One QPSK trial at a given Eb/N0: modulate, draw len(symbols) noise
samples per axis from the generator streams (np.random.randn on source
line 60), add them, and demodulate into the len(bits) receive buffer. -/
def qpskTrial (dB : ℝ) (bits : List ℤ) (gre gim : ℕ → ℝ) : Option (List ℤ) :=
  (qpskMap bits).bind
    (fun syms =>
      qpskDemod bits.length
        (awgnChannel 2 dB syms ((List.range syms.length).map gre)
          ((List.range syms.length).map gim)))

/-- Mean squared magnitude of a finite constellation. -/
def meanEnergy (l : List ℂ) : ℝ :=
  (l.map (fun c => Complex.abs c ^ 2)).sum / (l.length : ℝ)

/-- BPSK constellation: the two images of the bit values under the mapper
(normalization divisor 1). -/
def bpskConstellation : List ℂ := [bpskMapSym 0, bpskMapSym 1]

/-- QPSK constellation: the four images of the bit pairs under the mapper. -/
def qpskConstellation : List ℂ :=
  [qpskMapSym 0 0, qpskMapSym 0 1, qpskMapSym 1 0, qpskMapSym 1 1]

/-- Predicate for a binary value, as an executable test. -/
def isBit (b : ℤ) : Bool := b == 0 || b == 1

/-- Spec-side copy of the fixed 16-entry 16-QAM table (the exact table the
spec requires to be preserved), written independently of qam16Pairs so the
table-fidelity property compares the code table against it. -/
def specQAM16Table : List ((ℤ × ℤ × ℤ × ℤ) × (ℤ × ℤ)) :=
  [ ((0,0,0,0), (-3,-3)), ((0,0,0,1), (-3,-1)), ((0,0,1,0), (-3,3)), ((0,0,1,1), (-3,1)),
    ((0,1,0,0), (-1,-3)), ((0,1,0,1), (-1,-1)), ((0,1,1,0), (-1,3)), ((0,1,1,1), (-1,1)),
    ((1,0,0,0), (3,-3)),  ((1,0,0,1), (3,-1)),  ((1,0,1,0), (3,3)),  ((1,0,1,1), (3,1)),
    ((1,1,0,0), (1,-3)),  ((1,1,0,1), (1,-1)),  ((1,1,1,0), (1,3)),  ((1,1,1,1), (1,1)) ]

end

/-! Helper lemmas. -/

theorem bpskMapSym_zero : bpskMapSym 0 = -1 := by
  simp [bpskMapSym]

theorem bpskMapSym_one : bpskMapSym 1 = 1 := by
  norm_num [bpskMapSym]

theorem bpskDemodSym_mapSym_zero : bpskDemodSym (bpskMapSym 0) = 1 := by
  norm_num [bpskDemodSym, bpskMapSym_zero]

theorem absSq_toC_div_sqrt (p : ℤ × ℤ) (d : ℝ) (hd : 0 ≤ d) :
    Complex.abs (toC p / ((Real.sqrt d : ℝ) : ℂ)) ^ 2 =
      ((p.1 : ℝ) ^ 2 + (p.2 : ℝ) ^ 2) / d := by
  rw [Complex.sq_abs, map_div₀, toC, Complex.normSq_add_mul_I, Complex.normSq_ofReal,
    Real.mul_self_sqrt hd]

theorem absSq_qam16_point (p : ℤ × ℤ) :
    Complex.abs (toC p / ((Real.sqrt 10 : ℝ) : ℂ)) ^ 2 =
      ((p.1 : ℝ) ^ 2 + (p.2 : ℝ) ^ 2) / 10 :=
  absSq_toC_div_sqrt p 10 (by norm_num)

theorem toC_injective {p q : ℤ × ℤ} (h : toC p = toC q) : p = q := by
  have h' : ((p.1 : ℝ) = (q.1 : ℝ)) ∧ ((p.2 : ℝ) = (q.2 : ℝ)) := by
    simpa [toC, Complex.ext_iff] using h
  have h1 : p.1 = q.1 := by exact_mod_cast h'.1
  have h2 : p.2 = q.2 := by exact_mod_cast h'.2
  exact Prod.ext h1 h2

theorem div_sqrt_toC_injective {d : ℝ} (hd : 0 < d) {p q : ℤ × ℤ}
    (h : toC p / ((Real.sqrt d : ℝ) : ℂ) = toC q / ((Real.sqrt d : ℝ) : ℂ)) : p = q := by
  apply toC_injective
  have hne : ((Real.sqrt d : ℝ) : ℂ) ≠ 0 := by
    simpa [Complex.ofReal_eq_zero] using (Real.sqrt_ne_zero'.mpr hd)
  field_simp at h
  exact h

theorem qpskMapSym_injective {a0 a1 b0 b1 : ℤ}
    (hab : qpskMapSym a0 a1 = qpskMapSym b0 b1) : a0 = b0 ∧ a1 = b1 := by
  have hab' : toC (1 - 2 * a0, 1 - 2 * a1) / ((Real.sqrt 2 : ℝ) : ℂ) =
      toC (1 - 2 * b0, 1 - 2 * b1) / ((Real.sqrt 2 : ℝ) : ℂ) := by
    rw [toC, toC]
    push_cast
    rw [qpskMapSym, qpskMapSym] at hab
    push_cast at hab
    exact hab
  have h := div_sqrt_toC_injective (show (0 : ℝ) < 2 by norm_num) hab'
  rw [Prod.ext_iff] at h
  obtain ⟨h1, h2⟩ := h
  simp only [] at h1 h2
  omega

theorem argminGo_lt {α : Type} [LinearOrder α] (xs : List α) (b : α) (i bi N : ℕ)
    (hbi : bi < N) (hN : i + xs.length ≤ N) : argminGo xs b i bi < N := by
  induction xs generalizing b i bi with
  | nil => simpa [argminGo] using hbi
  | cons x xs ih =>
    simp only [List.length_cons] at hN
    rw [argminGo]
    split
    · exact ih x (i + 1) i (by omega) (by omega)
    · exact ih b (i + 1) bi hbi (by omega)

theorem argminIdx_lt_length {α : Type} [LinearOrder α] (l : List α) (h : l ≠ []) :
    argminIdx l < l.length := by
  cases l with
  | nil => exact absurd rfl h
  | cons x xs =>
    rw [argminIdx]
    exact argminGo_lt xs x 1 0 _ (by simp) (by simp [Nat.add_comm])

theorem qam16RevLookup_eq_lookupVal (p : ℤ × ℤ) (l : List ((ℤ × ℤ × ℤ × ℤ) × (ℤ × ℤ))) :
    qam16RevLookup (toC p) l = lookupVal p l := by
  induction l with
  | nil => rfl
  | cons kv rest ih =>
    rw [qam16RevLookup, lookupVal]
    by_cases h : kv.2 = p
    · rw [if_pos (by rw [h]), if_pos h]
    · rw [if_neg (fun hc => h (toC_injective hc)), if_neg h, ih]

theorem lookupVal_of_mem {l : List ((ℤ × ℤ × ℤ × ℤ) × (ℤ × ℤ))}
    (hd : l.Pairwise (fun a b => a.2 ≠ b.2)) {kv : (ℤ × ℤ × ℤ × ℤ) × (ℤ × ℤ)}
    (hm : kv ∈ l) : lookupVal kv.2 l = some kv.1 := by
  induction l with
  | nil => cases hm
  | cons a rest ih =>
    rcases List.mem_cons.mp hm with rfl | hm'
    · rw [lookupVal, if_pos rfl]
    · have hne : a.2 ≠ kv.2 := (List.pairwise_cons.mp hd).1 kv hm'
      rw [lookupVal, if_neg hne]
      exact ih (List.pairwise_cons.mp hd).2 hm'

theorem sqrt10C_ne_zero : ((Real.sqrt 10 : ℝ) : ℂ) ≠ 0 := by
  rw [ne_eq, Complex.ofReal_eq_zero]
  exact Real.sqrt_ne_zero'.mpr (by norm_num)

theorem qam16Pairs_snd_pairwise : qam16Pairs.Pairwise (fun a b => a.2 ≠ b.2) := by
  decide

/-- Every 16-QAM per-symbol decision returns the bit group of some table
entry: the argmin index is in range and the reverse lookup hits the table. -/
theorem qam16DemodSym_spec (s : ℂ) :
    ∃ kv ∈ qam16Pairs, qam16DemodSym s = some kv.1 := by
  have hne : qam16Constellation.map (fun c => Complex.abs (s - c)) ≠ [] := by
    rw [qam16Constellation, qam16Pairs]
    simp
  have hilt : argminIdx (qam16Constellation.map (fun c => Complex.abs (s - c))) <
      qam16Constellation.length := by
    have h := argminIdx_lt_length _ hne
    simpa using h
  obtain ⟨c, hc⟩ : ∃ c, qam16Constellation[argminIdx
      (qam16Constellation.map (fun c => Complex.abs (s - c)))]? = some c :=
    ⟨_, List.getElem?_eq_getElem hilt⟩
  have hcmem : c ∈ qam16Pairs.map (fun kv => toC kv.2 / ((Real.sqrt 10 : ℝ) : ℂ)) :=
    List.getElem?_mem hc
  obtain ⟨kv, hkv, hfkv⟩ := List.mem_map.mp hcmem
  refine ⟨kv, hkv, ?_⟩
  rw [qam16DemodSym, hc, Option.some_bind, ← hfkv,
    div_mul_cancel₀ _ sqrt10C_ne_zero, qam16RevLookup_eq_lookupVal]
  exact lookupVal_of_mem qam16Pairs_snd_pairwise hkv

/-- Claim C1: the noiseless round trip fails for BPSK.  The source maps
bit 0 to the symbol -1 (line 32 computes 2*b - 1) and the decision rule of
line 67 turns a negative real part into bit 1, so with zero added noise the
recovered sequence for the transmitted sequence [0] is [1], not [0]. -/
theorem noiseless_roundtrip_bpsk_flips :
    bpskDemod (bpskMap [0]) = [1] ∧ bpskDemod (bpskMap [0]) ≠ [0] := by
  constructor
  · simp [bpskDemod, bpskMap, bpskDemodSym_mapSym_zero]
  · simp [bpskDemod, bpskMap, bpskDemodSym_mapSym_zero]

/-- Claim C2: the BPSK constellation mapper of line 32 sends bit 0 to -1
and bit 1 to +1, the opposite of the mapping the spec (and the comment on
line 31) state. -/
theorem bpsk_map_evaluation :
    bpskMapSym 0 = -1 ∧ bpskMapSym 1 = 1 :=
  ⟨bpskMapSym_zero, bpskMapSym_one⟩

/-- Claim C5: the per-dimension noise variance equals
1 / (2 * k * 10 ^ (dB/10)), and the channel adds the scaled real and
imaginary noise draws elementwise to the symbol sequence. -/
theorem awgn_variance_and_elementwise (k : ℕ) (dB : ℝ) (syms : List ℂ)
    (nre nim : List ℝ) (i : ℕ)
    (h1 : nre.length = syms.length) (h2 : nim.length = syms.length)
    (hi : i < syms.length) :
    noiseVariance k dB = 1 / (2 * (k : ℝ) * (10 : ℝ) ^ (dB / 10)) ∧
    (awgnChannel k dB syms nre nim)[i]? =
      some (syms.get ⟨i, hi⟩ +
        ((Real.sqrt (noiseVariance k dB) : ℝ) : ℂ) *
          (((nre.get ⟨i, h1.symm ▸ hi⟩ : ℝ) : ℂ) +
            ((nim.get ⟨i, h2.symm ▸ hi⟩ : ℝ) : ℂ) * Complex.I)) := by
  constructor
  · unfold noiseVariance esN0Linear ebN0Linear
    ring_nf
  · have hre : i < nre.length := h1.symm ▸ hi
    have him : i < nim.length := h2.symm ▸ hi
    simp [awgnChannel, awgnNoise, List.getElem?_zipWith', List.getElem?_eq_getElem,
      hi, hre, him, List.get_eq_getElem]

/-- Witness for claim C5 at a concrete input. -/
theorem awgn_variance_and_elementwise_witness :
    ([(0 : ℝ)].length = [(1 : ℂ)].length) ∧ ((0 : ℕ) < [(1 : ℂ)].length) ∧
    (noiseVariance 1 0 = 1 / (2 * ((1 : ℕ) : ℝ) * (10 : ℝ) ^ ((0 : ℝ) / 10)) ∧
      (awgnChannel 1 0 [(1 : ℂ)] [(0 : ℝ)] [(0 : ℝ)])[0]? =
        some ([(1 : ℂ)].get ⟨0, by norm_num⟩ +
          ((Real.sqrt (noiseVariance 1 0) : ℝ) : ℂ) *
            ((([(0 : ℝ)].get ⟨0, by norm_num⟩ : ℝ) : ℂ) +
              (([(0 : ℝ)].get ⟨0, by norm_num⟩ : ℝ) : ℂ) * Complex.I))) :=
  ⟨rfl, by norm_num,
    awgn_variance_and_elementwise 1 0 [(1 : ℂ)] [(0 : ℝ)] [(0 : ℝ)] 0 rfl rfl (by norm_num)⟩

/-- Claim C4: every scheme's normalized constellation has mean squared
magnitude exactly 1 (BPSK divided by 1, QPSK by sqrt 2, 16-QAM by sqrt 10). -/
theorem absSq_qpskMapSym (b0 b1 : ℤ) :
    Complex.abs (qpskMapSym b0 b1) ^ 2 =
      (((1 - 2 * b0 : ℤ) : ℝ) ^ 2 + ((1 - 2 * b1 : ℤ) : ℝ) ^ 2) / 2 := by
  have h : qpskMapSym b0 b1 = toC (1 - 2 * b0, 1 - 2 * b1) / ((Real.sqrt 2 : ℝ) : ℂ) := by
    rw [qpskMapSym, toC]
    push_cast
    ring
  rw [h, absSq_toC_div_sqrt _ 2 (by norm_num)]

theorem energy_normalization :
    meanEnergy bpskConstellation = 1 ∧ meanEnergy qpskConstellation = 1 ∧
    meanEnergy qam16Constellation = 1 := by
  refine ⟨?_, ?_, ?_⟩
  · norm_num [meanEnergy, bpskConstellation, bpskMapSym_zero, bpskMapSym_one]
  · simp only [meanEnergy, qpskConstellation, List.map_cons, List.map_nil,
      absSq_qpskMapSym, List.sum_cons, List.sum_nil, List.length_cons, List.length_nil]
    norm_num
  · simp only [meanEnergy, qam16Constellation, qam16Pairs, List.map_cons, List.map_nil,
      absSq_qam16_point, List.sum_cons, List.sum_nil, List.length_cons, List.length_nil]
    norm_num

/-- Claim C7: each scheme's symbol map is a bijection onto its
constellation: the 2, 4 and 16 bit groups map to pairwise distinct complex
points (in particular the sixteen 16-QAM table values are distinct). -/
theorem symbol_maps_bijective :
    bpskConstellation.Pairwise (fun a b => a ≠ b) ∧ bpskConstellation.length = 2 ∧
    qpskConstellation.Pairwise (fun a b => a ≠ b) ∧ qpskConstellation.length = 4 ∧
    qam16Constellation.Pairwise (fun a b => a ≠ b) ∧ qam16Constellation.length = 16 ∧
    (qam16Pairs.map (fun kv => kv.2)).Pairwise (fun a b => a ≠ b) := by
  have hq : ∀ a0 a1 b0 b1 : ℤ, (a0, a1) ≠ (b0, b1) → qpskMapSym a0 a1 ≠ qpskMapSym b0 b1 := by
    intro a0 a1 b0 b1 hne heq
    obtain ⟨h1, h2⟩ := qpskMapSym_injective heq
    exact hne (by rw [h1, h2])
  have hp : qam16Pairs.Pairwise (fun kv kv' => kv.2 ≠ kv'.2) := by decide
  refine ⟨?_, rfl, ?_, rfl, ?_, rfl, ?_⟩
  · rw [bpskConstellation, bpskMapSym_zero, bpskMapSym_one]
    refine List.Pairwise.cons ?_ (List.Pairwise.cons (by simp) List.Pairwise.nil)
    intro c hc
    rw [List.mem_singleton] at hc
    rw [hc]
    norm_num
  · rw [qpskConstellation]
    refine List.Pairwise.cons ?_ (List.Pairwise.cons ?_ (List.Pairwise.cons ?_
      (List.Pairwise.cons (by simp) List.Pairwise.nil))) <;>
      intro c hc <;> simp only [List.mem_cons, List.not_mem_nil, or_false] at hc
    · rcases hc with rfl | rfl | rfl
      all_goals exact hq _ _ _ _ (by decide)
    · rcases hc with rfl | rfl
      all_goals exact hq _ _ _ _ (by decide)
    · rcases hc with rfl
      exact hq _ _ _ _ (by decide)
  · rw [qam16Constellation, List.pairwise_map]
    refine hp.imp ?_
    intro kv kv' hne heq
    exact hne (div_sqrt_toC_injective (show (0 : ℝ) < 10 by norm_num) heq)
  · rw [List.pairwise_map]
    exact hp

theorem stride2_length {α : Type} (l : List α) : (stride2 l).length = (l.length + 1) / 2 := by
  induction l using stride2.induct with
  | case1 => simp [stride2]
  | case2 a => simp [stride2]
  | case3 a b rest ih =>
    rw [stride2]
    simp only [List.length_cons, ih]
    omega

theorem broadcast1D_some {α β : Type} {xs : List α} {ys : List β} {ps : List (α × β)}
    (h : broadcast1D xs ys = some ps) :
    (xs.length = ys.length ∧ ps.length = xs.length) ∨
    (xs.length ≠ ys.length ∧ xs.length = 1 ∧ ps.length = ys.length) ∨
    (xs.length ≠ ys.length ∧ ys.length = 1 ∧ ps.length = xs.length) := by
  rw [broadcast1D] at h
  by_cases heq : xs.length = ys.length
  · rw [if_pos heq] at h
    injection h with h'
    left
    refine ⟨heq, ?_⟩
    rw [← h']
    simp [heq]
  · rw [if_neg heq] at h
    rcases xs with _ | ⟨x, _ | ⟨x2, xs'⟩⟩
    · rcases ys with _ | ⟨y, _ | ⟨y2, ys'⟩⟩
      · exact absurd rfl heq
      · injection h with h'
        refine Or.inr (Or.inr ⟨heq, rfl, ?_⟩)
        rw [← h']
        simp
      · exact Option.noConfusion h
    · rcases ys with _ | ⟨y, _ | ⟨y2, ys'⟩⟩ <;>
      · injection h with h'
        refine Or.inr (Or.inl ⟨heq, rfl, ?_⟩)
        rw [← h']
        simp
    · rcases ys with _ | ⟨y, _ | ⟨y2, ys'⟩⟩
      · exact Option.noConfusion h
      · injection h with h'
        refine Or.inr (Or.inr ⟨heq, rfl, ?_⟩)
        rw [← h']
        simp
      · exact Option.noConfusion h

/-- Characterization of a successful QPSK mapping: an even bit count maps
to half as many symbols; the only odd bit counts that survive the
broadcast of source line 37 are 1 (empty symbol array) and 3 (two
symbols). -/
theorem qpskMap_some_length {bits : List ℤ} {syms : List ℂ}
    (h : qpskMap bits = some syms) :
    (2 ∣ bits.length ∧ 2 * syms.length = bits.length) ∨
    (bits.length = 1 ∧ syms.length = 0) ∨
    (bits.length = 3 ∧ syms.length = 2) := by
  rw [qpskMap] at h
  cases hb : broadcast1D (stride2 bits) (stride2 bits.tail) with
  | none => rw [hb] at h; cases h
  | some ps =>
    rw [hb, Option.map_some'] at h
    injection h with h'
    have hlen : syms.length = ps.length := by rw [← h']; simp
    have he : (stride2 bits).length = (bits.length + 1) / 2 := stride2_length bits
    have ho : (stride2 bits.tail).length = bits.length / 2 := by
      rw [stride2_length]
      cases bits with
      | nil => rfl
      | cons b rest => simp only [List.tail_cons, List.length_cons]
    rcases broadcast1D_some hb with ⟨h1, h2⟩ | ⟨h1, h2, h3⟩ | ⟨h1, h2, h3⟩ <;> omega

theorem assignExpand_some_length {vs : List ℤ} {m : ℕ} {l : List ℤ}
    (h : assignExpand vs m = some l) : l.length = m := by
  rw [assignExpand] at h
  by_cases heq : vs.length = m
  · rw [if_pos heq] at h
    injection h with h'
    rw [← h']
    exact heq
  · rw [if_neg heq] at h
    rcases vs with _ | ⟨v, _ | ⟨v2, vs'⟩⟩
    · exact Option.noConfusion h
    · injection h with h'
      rw [← h']
      simp
    · exact Option.noConfusion h

theorem assignExpand_mem {vs : List ℤ} {m : ℕ} {l : List ℤ}
    (h : assignExpand vs m = some l) : ∀ x ∈ l, x ∈ vs := by
  rw [assignExpand] at h
  by_cases heq : vs.length = m
  · rw [if_pos heq] at h
    injection h with h'
    rw [← h']
    exact fun x hx => hx
  · rw [if_neg heq] at h
    rcases vs with _ | ⟨v, _ | ⟨v2, vs'⟩⟩
    · exact Option.noConfusion h
    · injection h with h'
      intro x hx
      rw [← h'] at hx
      rw [List.eq_of_mem_replicate hx]
      exact List.mem_singleton_self v
    · exact Option.noConfusion h

theorem interleave_length (xs ys : List ℤ) :
    (interleave xs ys).length = xs.length + ys.length := by
  induction xs, ys using interleave.induct with
  | case1 ys => simp [interleave]
  | case2 a xs => simp [interleave]
  | case3 a xs b ys ih =>
    rw [interleave]
    simp only [List.length_cons, ih]
    omega

theorem interleave_mem (xs ys : List ℤ) :
    ∀ x ∈ interleave xs ys, x ∈ xs ∨ x ∈ ys := by
  induction xs, ys using interleave.induct with
  | case1 ys => intro x hx; right; simpa [interleave] using hx
  | case2 a xs => intro x hx; left; simpa [interleave] using hx
  | case3 a xs b ys ih =>
    intro x hx
    rw [interleave] at hx
    rcases List.mem_cons.mp hx with rfl | hx'
    · exact Or.inl (List.mem_cons_self _ _)
    · rcases List.mem_cons.mp hx' with rfl | hx2
      · exact Or.inr (List.mem_cons_self _ _)
      · rcases ih x hx2 with h | h
        · exact Or.inl (List.mem_cons_of_mem a h)
        · exact Or.inr (List.mem_cons_of_mem b h)

theorem qam16Map_eq_none (bits : List ℤ) : ¬ (4 ∣ bits.length) → qam16Map bits = none := by
  induction bits using qam16Map.induct with
  | case1 => intro h; exact absurd ⟨0, rfl⟩ h
  | case2 b0 b1 b2 b3 rest p l hrec hlk ih =>
    intro h
    have hrest : ¬ (4 ∣ rest.length) := by
      intro hd
      apply h
      simp only [List.length_cons]
      omega
    rw [ih hrest] at hrec
    cases hrec
  | case3 b0 b1 b2 b3 rest hno ih =>
    intro h
    have hrest : ¬ (4 ∣ rest.length) := by
      intro hd
      apply h
      simp only [List.length_cons]
      omega
    rw [qam16Map, ih hrest]
    cases lookupKey (b0, b1, b2, b3) qam16Pairs <;> rfl
  | case4 t h1 h2 =>
    intro h
    rcases t with _ | ⟨a, _ | ⟨b, _ | ⟨c, _ | ⟨d, rest⟩⟩⟩⟩
    · exact absurd rfl h1
    · rfl
    · rfl
    · rfl
    · exact absurd rfl (h2 a b c d rest)

theorem qam16Map_length (bits : List ℤ) :
    ∀ syms, qam16Map bits = some syms → 4 * syms.length = bits.length := by
  induction bits using qam16Map.induct with
  | case1 => intro syms h; cases h; rfl
  | case2 b0 b1 b2 b3 rest p l hrec hlk ih =>
    intro syms h
    rw [qam16Map, hlk, hrec] at h
    injection h with h'
    rw [← h']
    simp only [List.length_cons]
    have := ih l hrec
    omega
  | case3 b0 b1 b2 b3 rest hno ih =>
    intro syms h
    rw [qam16Map] at h
    cases hlk : lookupKey (b0, b1, b2, b3) qam16Pairs with
    | none =>
      cases hr : qam16Map rest with
      | none => rw [hlk, hr] at h; cases h
      | some l => rw [hlk, hr] at h; cases h
    | some p =>
      cases hr : qam16Map rest with
      | none => rw [hlk, hr] at h; cases h
      | some l => exact (hno p l hlk hr).elim
  | case4 t h1 h2 =>
    intro syms h
    rcases t with _ | ⟨a, _ | ⟨b, _ | ⟨c, _ | ⟨d, rest⟩⟩⟩⟩
    · exact absurd rfl h1
    · cases h
    · cases h
    · cases h
    · exact absurd rfl (h2 a b c d rest)

theorem qpskDemod_some_length {n : ℕ} {received : List ℂ} {out : List ℤ}
    (h : qpskDemod n received = some out) : out.length = n := by
  rw [qpskDemod] at h
  cases hE : assignExpand (received.map (fun s => if s.re < 0 then (1 : ℤ) else 0))
      ((n + 1) / 2) with
  | none => rw [hE] at h; cases h
  | some evens =>
    rw [hE, Option.some_bind] at h
    cases hO : assignExpand (received.map (fun s => if s.im < 0 then (1 : ℤ) else 0))
        (n / 2) with
    | none => rw [hO] at h; cases h
    | some odds =>
      rw [hO, Option.map_some'] at h
      injection h with h'
      rw [← h', interleave_length, assignExpand_some_length hE, assignExpand_some_length hO]
      omega

theorem assignExpand_exact (vs : List ℤ) : assignExpand vs vs.length = some vs := by
  rw [assignExpand, if_pos rfl]

/-- On the nominal path, where the received sequence holds one symbol per
bit pair, both strided writes match their slice sizes exactly and the
buffer holds the interleaved threshold decisions. -/
theorem qpskDemod_nominal (received : List ℂ) :
    qpskDemod (2 * received.length) received =
      some (interleave (received.map (fun s => if s.re < 0 then (1 : ℤ) else 0))
        (received.map (fun s => if s.im < 0 then (1 : ℤ) else 0))) := by
  have h1 : (2 * received.length + 1) / 2 = received.length := by omega
  have h2 : 2 * received.length / 2 = received.length := by omega
  have e1 : assignExpand (received.map (fun s => if s.re < 0 then (1 : ℤ) else 0))
      received.length = some (received.map (fun s => if s.re < 0 then (1 : ℤ) else 0)) := by
    have h := assignExpand_exact (received.map (fun s => if s.re < 0 then (1 : ℤ) else 0))
    rwa [List.length_map] at h
  have e2 : assignExpand (received.map (fun s => if s.im < 0 then (1 : ℤ) else 0))
      received.length = some (received.map (fun s => if s.im < 0 then (1 : ℤ) else 0)) := by
    have h := assignExpand_exact (received.map (fun s => if s.im < 0 then (1 : ℤ) else 0))
    rwa [List.length_map] at h
  rw [qpskDemod, h1, h2, e1, Option.some_bind, e2, Option.map_some']

theorem qam16Demod_length (received : List ℂ) :
    ∀ out, qam16Demod received = some out → out.length = 4 * received.length := by
  induction received with
  | nil => intro out h; cases h; rfl
  | cons s rest ih =>
    intro out h
    rw [qam16Demod] at h
    cases hs : qam16DemodSym s with
    | none => rw [hs] at h; cases h
    | some g =>
      rw [hs, Option.some_bind] at h
      cases hr : qam16Demod rest with
      | none => rw [hr] at h; cases h
      | some l =>
        rw [hr, Option.map_some'] at h
        injection h with h'
        rw [← h']
        simp only [List.length_append, groupToList, List.length_cons, List.length_nil]
        have := ih l hr
        omega

theorem awgnChannel_length (k : ℕ) (dB : ℝ) (syms : List ℂ) (nre nim : List ℝ) :
    (awgnChannel k dB syms nre nim).length = min syms.length (min nre.length nim.length) := by
  simp [awgnChannel, awgnNoise]

/-- Claim C6: a bit count not divisible by the scheme's bits per symbol
makes that scheme's trial fail with a propagated error, never a silently
truncated result.  The 16-QAM mapper raises at the reshape for any length
not divisible by 4.  A QPSK trial with an odd bit count raises either at
the broadcast of source line 37 (odd lengths other than 1 and 3) or, for
lengths 1 and 3 where that broadcast silently succeeds, at the strided
receive-buffer writes of source lines 73-74. -/
theorem nondivisible_length_fails (dB : ℝ) (bits : List ℤ) (gre gim : ℕ → ℝ) :
    (¬ (2 ∣ bits.length) → qpskTrial dB bits gre gim = none) ∧
    (¬ (4 ∣ bits.length) → qam16Map bits = none) := by
  constructor
  · intro h2
    rw [qpskTrial]
    cases hm : qpskMap bits with
    | none => rfl
    | some syms =>
      rw [Option.some_bind]
      have hch : (awgnChannel 2 dB syms ((List.range syms.length).map gre)
          ((List.range syms.length).map gim)).length = syms.length := by
        rw [awgnChannel_length]
        simp
      rcases qpskMap_some_length hm with ⟨hd, _⟩ | ⟨hn, hs⟩ | ⟨hn, hs⟩
      · exact absurd hd h2
      · have hrec : awgnChannel 2 dB syms ((List.range syms.length).map gre)
            ((List.range syms.length).map gim) = [] :=
          List.length_eq_zero.mp (by rw [hch, hs])
        rw [hn, hrec]
        rfl
      · obtain ⟨a, b, hab⟩ := List.length_eq_two.mp (hch.trans hs)
        rw [hn, hab]
        rfl
  · exact qam16Map_eq_none bits

/-- Witness for claim C6 at the concrete one-bit input (the QPSK trial at
length 1 maps to an empty symbol array and then fails at the first
receive-buffer write). -/
theorem nondivisible_length_fails_witness :
    (¬ (2 ∣ [(0 : ℤ)].length) ∧ ¬ (4 ∣ [(0 : ℤ)].length)) ∧
    qpskTrial 0 [(0 : ℤ)] (fun _ => 0) (fun _ => 0) = none ∧
    qam16Map [(0 : ℤ)] = none :=
  ⟨⟨by decide, by decide⟩,
    (nondivisible_length_fails 0 [(0 : ℤ)] (fun _ => 0) (fun _ => 0)).1 (by decide),
    (nondivisible_length_fails 0 [(0 : ℤ)] (fun _ => 0) (fun _ => 0)).2 (by decide)⟩

theorem interleave_drop_take (received : List ℂ) : ∀ i : ℕ,
    ((interleave (received.map (fun s => if s.re < 0 then (1 : ℤ) else 0))
        (received.map (fun s => if s.im < 0 then (1 : ℤ) else 0))).drop (2 * i)).take 2 =
      (received[i]?).elim [] qpskDemodSym := by
  induction received with
  | nil => intro i; simp [interleave]
  | cons s rest ih =>
    intro i
    simp only [List.map_cons]
    rw [interleave]
    cases i with
    | zero => simp [qpskDemodSym]
    | succ n =>
      have h2 : 2 * (n + 1) = 2 * n + 1 + 1 := by ring
      rw [h2, List.drop_succ_cons, List.drop_succ_cons, List.getElem?_cons_succ]
      exact ih n

theorem qam16Demod_drop_take (received : List ℂ) :
    ∀ out, qam16Demod received = some out → ∀ i : ℕ,
    (out.drop (4 * i)).take 4 =
      (received[i]?).elim [] (fun s => (qam16DemodSym s).elim [] groupToList) := by
  induction received with
  | nil => intro out h i; cases h; simp
  | cons s rest ih =>
    intro out h i
    rw [qam16Demod] at h
    cases hs : qam16DemodSym s with
    | none => rw [hs] at h; cases h
    | some g =>
      rw [hs, Option.some_bind] at h
      cases hr : qam16Demod rest with
      | none => rw [hr] at h; cases h
      | some l =>
        rw [hr, Option.map_some'] at h
        injection h with h'
        subst h'
        cases i with
        | zero =>
          rw [List.getElem?_cons_zero, Nat.mul_zero, List.drop_zero]
          show (groupToList g ++ l).take 4 = (qam16DemodSym s).elim [] groupToList
          rw [hs]
          show (groupToList g ++ l).take 4 = groupToList g
          rw [groupToList]
          simp
        | succ n =>
          rw [List.getElem?_cons_succ]
          have h4 : 4 * (n + 1) = 4 * n + 1 + 1 + 1 + 1 := by ring
          rw [groupToList, h4]
          simp only [List.cons_append, List.nil_append, List.drop_succ_cons]
          exact ih l hr n

theorem bpskDemod_all_bits (received : List ℂ) : (bpskDemod received).all isBit = true := by
  rw [bpskDemod, List.all_eq_true]
  intro b hb
  obtain ⟨s, _, rfl⟩ := List.mem_map.mp hb
  show isBit (bpskDemodSym s) = true
  rw [bpskDemodSym]
  split <;> rfl

theorem qpskDemod_all_bits (n : ℕ) (received : List ℂ) :
    ∀ out, qpskDemod n received = some out → out.all isBit = true := by
  intro out h
  rw [qpskDemod] at h
  cases hE : assignExpand (received.map (fun s => if s.re < 0 then (1 : ℤ) else 0))
      ((n + 1) / 2) with
  | none => rw [hE] at h; cases h
  | some evens =>
    rw [hE, Option.some_bind] at h
    cases hO : assignExpand (received.map (fun s => if s.im < 0 then (1 : ℤ) else 0))
        (n / 2) with
    | none => rw [hO] at h; cases h
    | some odds =>
      rw [hO, Option.map_some'] at h
      injection h with h'
      rw [← h', List.all_eq_true]
      intro b hb
      have hbit : b ∈ received.map (fun s => if s.re < 0 then (1 : ℤ) else 0) ∨
          b ∈ received.map (fun s => if s.im < 0 then (1 : ℤ) else 0) := by
        rcases interleave_mem evens odds b hb with h1 | h1
        · exact Or.inl (assignExpand_mem hE b h1)
        · exact Or.inr (assignExpand_mem hO b h1)
      rcases hbit with h1 | h1 <;>
        obtain ⟨s, _, rfl⟩ := List.mem_map.mp h1 <;>
        · show isBit _ = true
          split <;> rfl

theorem qam16Demod_all_bits (received : List ℂ) :
    ∀ out, qam16Demod received = some out → out.all isBit = true := by
  have htab : ∀ kv ∈ qam16Pairs, (groupToList kv.1).all isBit = true := by decide
  induction received with
  | nil => intro out h; cases h; rfl
  | cons s rest ih =>
    intro out h
    rw [qam16Demod] at h
    obtain ⟨kv, hkv, hs⟩ := qam16DemodSym_spec s
    rw [hs, Option.some_bind] at h
    cases hr : qam16Demod rest with
    | none => rw [hr] at h; cases h
    | some l =>
      rw [hr, Option.map_some'] at h
      injection h with h'
      subst h'
      rw [List.all_append, htab kv hkv, ih l hr]
      rfl

/-- Claim C8: the 16-QAM symbol map sends bit group (0,0,0,0) to
(-3-3j)/sqrt 10 and (1,1,1,1) to (1+1j)/sqrt 10, and the code table agrees
with the fixed 16-entry table on every bit group. -/
theorem qam16_table_fidelity :
    qam16Map [0, 0, 0, 0] = some [((-3 : ℂ) - 3 * Complex.I) / ((Real.sqrt 10 : ℝ) : ℂ)] ∧
    qam16Map [1, 1, 1, 1] = some [((1 : ℂ) + 1 * Complex.I) / ((Real.sqrt 10 : ℝ) : ℂ)] ∧
    specQAM16Table.all (fun kv => lookupKey kv.1 qam16Pairs == some kv.2) = true := by
  refine ⟨?_, ?_, by decide⟩
  · have h : qam16Map [0, 0, 0, 0] = some [toC (-3, -3) / ((Real.sqrt 10 : ℝ) : ℂ)] := rfl
    have h2 : toC (-3, -3) = (-3 : ℂ) - 3 * Complex.I := by
      rw [toC]
      push_cast
      ring
    rw [h, h2]
  · have h : qam16Map [1, 1, 1, 1] = some [toC (1, 1) / ((Real.sqrt 10 : ℝ) : ℂ)] := rfl
    have h2 : toC (1, 1) = (1 : ℂ) + 1 * Complex.I := by
      rw [toC]
      push_cast
      ring
    rw [h, h2]

/-- Claim C9: mapping and demodulation preserve lengths (k bits per symbol
for each scheme, so a successful trial recovers exactly as many bits as
were sent), the channel output has the common length of its inputs, and
demodulation is order-preserving: bit group i of the recovered sequence is
the decision for received symbol i, for every scheme. -/
theorem length_invariant_and_order (bits : List ℤ) (received syms0 : List ℂ)
    (nre nim : List ℝ) (k : ℕ) (dB : ℝ) (i n : ℕ) :
    (bpskMap bits).length = bits.length ∧
    (2 ∣ bits.length → (qpskMap bits).elim True (fun syms => 2 * syms.length = bits.length)) ∧
    (qam16Map bits).elim True (fun syms => 4 * syms.length = bits.length) ∧
    (awgnChannel k dB syms0 nre nim).length = min syms0.length (min nre.length nim.length) ∧
    (bpskDemod received).length = received.length ∧
    (qpskDemod n received).elim True (fun out => out.length = n) ∧
    (qpskDemod (2 * received.length) received).isSome = true ∧
    (qam16Demod received).elim True (fun out => out.length = 4 * received.length) ∧
    (bpskDemod received)[i]? = (received[i]?).map bpskDemodSym ∧
    (qpskDemod (2 * received.length) received).elim True (fun out =>
      (out.drop (2 * i)).take 2 = (received[i]?).elim [] qpskDemodSym) ∧
    (qam16Demod received).elim True (fun out =>
      (out.drop (4 * i)).take 4 =
        (received[i]?).elim [] (fun s => (qam16DemodSym s).elim [] groupToList)) := by
  refine ⟨by simp [bpskMap], ?_, ?_, awgnChannel_length k dB syms0 nre nim,
    by simp [bpskDemod], ?_, ?_, ?_, ?_, ?_, ?_⟩
  · intro hdvd
    cases hm : qpskMap bits with
    | none => exact trivial
    | some syms =>
      rcases qpskMap_some_length hm with ⟨_, h⟩ | ⟨hn, _⟩ | ⟨hn, _⟩
      · exact h
      · omega
      · omega
  · cases h : qam16Map bits with
    | none => exact trivial
    | some syms => exact qam16Map_length bits syms h
  · cases h : qpskDemod n received with
    | none => exact trivial
    | some out => exact qpskDemod_some_length h
  · rw [qpskDemod_nominal]
    rfl
  · cases h : qam16Demod received with
    | none => exact trivial
    | some out => exact qam16Demod_length received out h
  · rw [bpskDemod, List.getElem?_map]
  · rw [qpskDemod_nominal]
    exact interleave_drop_take received i
  · cases h : qam16Demod received with
    | none => exact trivial
    | some out => exact qam16Demod_drop_take received out h i

/-- Witness for claim C9's divisibility hypothesis at a concrete even
bit count. -/
theorem length_invariant_and_order_witness :
    (2 ∣ ([(0 : ℤ), 0]).length) ∧
    (qpskMap [(0 : ℤ), 0]).elim True (fun syms => 2 * syms.length = ([(0 : ℤ), 0]).length) :=
  ⟨by decide,
    (length_invariant_and_order [(0 : ℤ), 0] [] [] [] [] 0 0 0 0).2.1 (by decide)⟩

/-- Claim C10: every recovered bit is 0 or 1 for every scheme and every
received sequence: the BPSK and QPSK decisions are 0/1 by the threshold
rule, and every successful 16-QAM decision is a key of the fixed table. -/
theorem recovered_bits_binary (n : ℕ) (received : List ℂ) :
    (bpskDemod received).all isBit = true ∧
    (qpskDemod n received).elim True (fun out => out.all isBit = true) ∧
    (qam16Demod received).elim True (fun out => out.all isBit = true) := by
  refine ⟨bpskDemod_all_bits received, ?_, ?_⟩
  · cases h : qpskDemod n received with
    | none => exact trivial
    | some out => exact qpskDemod_all_bits n received out h
  · cases h : qam16Demod received with
    | none => exact trivial
    | some out => exact qam16Demod_all_bits received out h

end DigModSim
